import Mathlib

/-!
Verification of the Timeline & Paging Engine of the quran-reels-maker
repository: page-boundary computation (`core/text_renderer.py::compute_page_boundaries`),
proportional translation splitting (`split_translation_by_pages`), the
accumulating text-state timeline with page crossfade
(`create_accumulating_text_lines`), the duration-bounded reel sequencing of
`core/video_generator.py::generate_reel`, and the audio-duration probes.

Modelling choices:
* times are exact rationals (the source uses Python floats on small decimal
  values such as `start_ms / 1000.0`, `0.05`, `0.5`);
* machine integers are `Int` (Python ints are unbounded anyway);
* Python strings are `String`; `str.split()` is splitting on whitespace runs
  dropping empty chunks, and `" ".join` is `sjoin` below;
* Python `round()` is exact banker's rounding on the rational value;
* fallible collaborator calls (audio probes) are `Except` inputs consumed by
  total functions.
-/

namespace QuranReels

/-- Model of Python `" ".join(ws)`: interpose a single space between the
elements. -/
def sjoin : List String → String
  | [] => ""
  | [w] => w
  | w :: ws => w ++ " " ++ sjoin ws

/-- Helper for the model of Python `str.split()`: scan the characters,
splitting on whitespace runs and dropping empty chunks; `cur` is the reversed
chunk currently being accumulated. -/
def splitWsAux : List Char → List Char → List (List Char)
  | [], cur => if cur = [] then [] else [cur.reverse]
  | c :: rest, cur =>
    if c.isWhitespace then
      if cur = [] then splitWsAux rest [] else cur.reverse :: splitWsAux rest []
    else
      splitWsAux rest (c :: cur)

/-- Model of Python `str.split()` with no arguments: split on runs of
whitespace, dropping empty chunks. -/
def pySplit (s : String) : List String := (splitWsAux s.data []).map (fun l => ⟨l⟩)

/-- A per-word timing segment, the dict
`{'word_index': 1-based, 'start_ms': ..., 'end_ms': ...}`. -/
structure Seg where
  word_index : ℤ
  start_ms : ℤ
  end_ms : ℤ
deriving DecidableEq

/-- A display page: the dict produced by `compute_page_boundaries`
(`{page_index, start_time, end_time, word_start_idx, word_end_idx}`). -/
structure Page where
  page_index : ℤ
  start_time : ℚ
  end_time : ℚ
  word_start_idx : ℤ
  word_end_idx : ℤ
deriving DecidableEq

/-- Inner scan of `compute_page_boundaries` (lines 292-298): a segment whose
0-based word index (`seg['word_index'] - 1`) falls in the page's word range
lowers the running `start_time` minimum and raises the running `end_time`
maximum by its times in seconds; other segments leave the accumulator
unchanged. -/
def pageScan (w_start w_end : ℤ) (acc : ℚ × ℚ) (seg : Seg) : ℚ × ℚ :=
  let idx := seg.word_index - 1
  if w_start ≤ idx ∧ idx ≤ w_end then
    (min acc.1 ((seg.start_ms : ℚ) / 1000), max acc.2 ((seg.end_ms : ℚ) / 1000))
  else acc

/-- Loop body of `compute_page_boundaries` for one page `p`: word range,
then a scan of all timing segments whose (0-based) word index falls in the
range, accumulating `start_time` as a minimum initialized with
`total_duration` (the fallback) and `end_time` as a maximum initialized
with `0.0`; finally the last page's end is forced to `total_duration` and
page 0's start to `0.0`. -/
def pageFor (sorted_segments : List Seg) (word_count page_size : ℤ)
    (total_duration : ℚ) (num_pages : ℤ) (p : ℕ) : Page :=
  let w_start : ℤ := (p : ℤ) * page_size
  let w_end : ℤ := min (((p : ℤ) + 1) * page_size - 1) (word_count - 1)
  let times := sorted_segments.foldl (pageScan w_start w_end) (total_duration, 0)
  let end_time := if (p : ℤ) = num_pages - 1 then total_duration else times.2
  let start_time : ℚ := if p = 0 then 0 else times.1
  { page_index := (p : ℤ), start_time := start_time, end_time := end_time,
    word_start_idx := w_start, word_end_idx := w_end }

/-- `num_pages = max(1, math.ceil(word_count / page_size))` of
`compute_page_boundaries` (line 280). -/
def numPages (word_count page_size : ℤ) : ℤ :=
  max 1 ⌈(word_count : ℚ) / (page_size : ℚ)⌉

/-- `core/text_renderer.py::compute_page_boundaries` (lines 258-318): empty
segment list yields `[]`; otherwise `numPages` pages are produced by
`pageFor`. -/
def compute_page_boundaries (sorted_segments : List Seg) (word_count : ℤ)
    (total_duration : ℚ) (page_size : ℤ) : List Page :=
  if sorted_segments = [] then []
  else
    (List.range (numPages word_count page_size).toNat).map
      (pageFor sorted_segments word_count page_size total_duration
        (numPages word_count page_size))

/-- Model of Python `round()` on an exact rational: round half to even
(the source applies `round` to a float product). -/
def pyRound (q : ℚ) : ℤ :=
  if q - ⌊q⌋ < 1/2 then ⌊q⌋
  else if 1/2 < q - ⌊q⌋ then ⌊q⌋ + 1
  else if ⌊q⌋ % 2 = 0 then ⌊q⌋ else ⌊q⌋ + 1

/-- The per-page word slices taken by the loop of
`split_translation_by_pages` (lines 354-368): page `i` consumes
`max(1, round(span / max(total_word_count,1) * n_trans_words))` translation
words from position `consumed`, the last page (`i == n_pages - 1`) the whole
remainder; `consumed` advances by the number of words actually taken.  The
source joins each slice with spaces as it appends it; we keep the word lists
and join them afterwards in `split_translation_by_pages`. -/
def segLists (words : List String) (n_pages : ℕ) (total_word_count : ℤ)
    (n_trans_words : ℕ) : List Page → ℕ → ℕ → List (List String)
  | [], _, _ => []
  | pb :: rest, i, consumed =>
    let page_arabic_words : ℤ := pb.word_end_idx - pb.word_start_idx + 1
    let ratio : ℚ := (page_arabic_words : ℚ) / ((max total_word_count 1 : ℤ) : ℚ)
    let count : ℤ := max 1 (pyRound (ratio * (n_trans_words : ℚ)))
    let seg_words :=
      if i = n_pages - 1 then words.drop consumed
      else (words.drop consumed).take count.toNat
    seg_words :: segLists words n_pages total_word_count n_trans_words rest (i + 1)
      (consumed + seg_words.length)

/-- `core/text_renderer.py::split_translation_by_pages` (lines 325-374):
degenerate inputs return the translation repeated `max(1, len(pages))` times
(`[translation or ""] * ...`); a single page passes the translation through;
otherwise the proportional loop runs, followed by the trailing
fill-with-empty-strings loop (a no-op since the loop emits one segment per
page). -/
def split_translation_by_pages (translation : String)
    (page_boundaries : List Page) (total_word_count : ℤ) : List String :=
  if translation = "" ∨ page_boundaries = [] then
    List.replicate (max 1 page_boundaries.length) translation
  else
    let words := pySplit translation
    let n_pages := page_boundaries.length
    if n_pages ≤ 1 then [translation]
    else
      let segments := (segLists words n_pages total_word_count words.length
        page_boundaries 0 0).map sjoin
      segments ++ List.replicate (n_pages - segments.length) ""

/-- A word-text record (`{'position': 1-based, 'text': ...}`). -/
structure Word where
  position : ℤ
  text : String
deriving DecidableEq

/-- A pre-built text state of `create_accumulating_text_lines`: the tuple
`(time_start, time_end, page_index, text_string)`. -/
structure TState where
  start_s : ℚ
  end_s : ℚ
  page_index : ℕ
  display : String
deriving DecidableEq

/-- `word_map = {w['position']: w['text'] for w in words}` read with
`.get(word_idx, "")`: the last binding for a key wins, missing keys give
the empty string. -/
def word_map (words : List Word) (k : ℤ) : String :=
  match words.reverse.find? (fun w => decide (w.position = k)) with
  | some w => w.text
  | none => ""

/-- State-building loop of `create_accumulating_text_lines` (lines 808-832):
walk the sorted segments; a segment whose word index has no (nonempty) text is
skipped; otherwise its text is appended to the running word buffer `cw`,
the page index is `(len(buffer) - 1) // page_size`, the display string joins
the words of the current page only, the state's end is the next segment's
start (or `total`) extended to at least 50 ms. -/
def buildStatesAux (wm : ℤ → String) (total : ℚ) (ps : ℕ) :
    List Seg → List String → List TState
  | [], _ => []
  | seg :: rest, cw =>
    let text := wm seg.word_index
    if text = "" then buildStatesAux wm total ps rest cw
    else
      let cw' := cw ++ [text]
      let page_index := (cw'.length - 1) / ps
      let active := cw'.drop (page_index * ps)
      let start_s := (seg.start_ms : ℚ) / 1000
      let next_s : ℚ :=
        match rest with
        | [] => total
        | s2 :: _ => (s2.start_ms : ℚ) / 1000
      let end_s := if next_s - start_s < 1/20 then start_s + 1/20 else next_s
      ⟨start_s, end_s, page_index, sjoin active⟩ ::
        buildStatesAux wm total ps rest cw'

/-- The full text-state list built by `create_accumulating_text_lines` from
the segments already sorted by `start_ms`. -/
def accumulating_text_states (sorted_segments : List Seg) (words : List Word)
    (total_duration : ℚ) (page_size : ℕ) : List TState :=
  buildStatesAux (word_map words) total_duration page_size sorted_segments []

/-- The interval test `start_s <= t < end_s` used by the state lookups. -/
def state_match (t : ℚ) (s : TState) : Bool := decide (s.start_s ≤ t ∧ t < s.end_s)

/-- Symbolic rendered frame: the all-transparent `empty_frame` or the cached
render of a display string. -/
inductive FrameRes where
  | empty
  | text (s : String)
deriving DecidableEq

/-- `_get_state_at` (lines 865-877): first state whose interval contains `t`
wins (the loop breaks); if none matches, the `for`-`else` branch returns the
last state when `t >= states[-1][0]`, else the empty frame. -/
def get_state_at (states : List TState) (t : ℚ) : FrameRes :=
  match states.find? (state_match t) with
  | some s => .text s.display
  | none =>
    match states.getLast? with
    | some sl => if sl.start_s ≤ t then .text sl.display else .empty
    | none => .empty

/-- Page transition instants (lines 860-863): the start of every state whose
page index differs from its predecessor's. -/
def page_transitions (states : List TState) : List ℚ :=
  (states.zip states.tail).filterMap
    (fun ab => if ab.2.page_index ≠ ab.1.page_index then some ab.2.start_s else none)

/-- Outgoing/incoming state resolution in `make_frame` (lines 889-893): the
loop scans all states without breaking, so the last state whose interval
contains the probe time wins; the default is the empty frame. -/
def stateFrameLast (states : List TState) (t : ℚ) : FrameRes :=
  states.foldl (fun acc s => if state_match t s then FrameRes.text s.display else acc)
    .empty

/-- Membership test of `t` in the crossfade window of transition `T`
(`trans_t - crossfade_dur / 2 <= t <= trans_t + crossfade_dur / 2`). -/
def in_window (d t T : ℚ) : Bool := decide (T - d / 2 ≤ t ∧ t ≤ T + d / 2)

/-- The clamped blend factor of `make_frame` (lines 896-897):
`blend = max(0.0, min(1.0, (t - (trans_t - crossfade_dur/2)) / crossfade_dur))`. -/
def blend_factor (T d t : ℚ) : ℚ := max 0 (min 1 ((t - (T - d / 2)) / d))

/-- Per-channel alpha blending used for the crossfade:
`out * (1 - blend) + in * blend`. -/
def alphaBlend (o i b : ℚ) : ℚ := o * (1 - b) + i * b

/-- Symbolic output of `make_frame` at a query time: either an unmodified
state frame or a crossfade blend of two state frames with a factor. -/
inductive FrameOut where
  | pure (f : FrameRes)
  | blend (outF inF : FrameRes) (b : ℚ)
deriving DecidableEq

/-- `make_frame` (lines 879-906): if `t` falls in the window of a detected
transition (first matching transition in list order), blend the state active
just before the transition (`trans_t - 0.01`) into the one active just after
(`trans_t + 0.01`) with the clamped factor; otherwise return the state
active at `t` unmodified. -/
def make_frame (states : List TState) (transitions : List ℚ) (d t : ℚ) : FrameOut :=
  match transitions.find? (in_window d t) with
  | some T =>
      .blend (stateFrameLast states (T - 1/100)) (stateFrameLast states (T + 1/100))
        (blend_factor T d t)
  | none => .pure (get_state_at states t)

/-- One sequenced narration unit in `generate_reel`'s `ayah_data`: its start
time in the reel and its `segment_end`. -/
structure AyahRec where
  start_time : ℚ
  segment_end : ℚ
deriving DecidableEq

/-- Modelled from the spec: `fetch_single_ayah` (core/ayah_fetcher.py, whose
source file is not among the sources here) returns a record whose
`segment_end` is `startTimeInReel + audioDuration + interUnitPadding`
(spec §3, NarrationUnit). -/
def fetch_segment_end (current_time audio_duration padding : ℚ) : ℚ :=
  current_time + audio_duration + padding

/-- STEP 1 of `generate_reel` (lines 140-159): fetch requested ayahs in
order; `projected_duration = segment_end + 0.5`; when at least one unit was
already appended and the projection exceeds `max_content_duration`, stop
without appending; otherwise append and advance `current_time`. -/
def accumulateLoop (padding maxC : ℚ) : List ℚ → ℚ → List AyahRec → List AyahRec × ℚ
  | [], t, acc => (acc, t)
  | d :: rest, t, acc =>
    let se := fetch_segment_end t d padding
    if acc ≠ [] ∧ se + 1/2 > maxC then (acc, t)
    else accumulateLoop padding maxC rest se (acc ++ [⟨t, se⟩])

/-- STEP 2 of `generate_reel` (lines 165-192): while the total is below the
minimum and below the maximum, fetch the next available ayah; skip it (and
stop) if its projection would exceed the maximum, otherwise append it and set
`total = segment_end + 0.5`. -/
def extendLoop (padding minC maxC : ℚ) :
    List ℚ → ℚ → ℚ → List AyahRec → List AyahRec × ℚ
  | [], _, total, acc => (acc, total)
  | d :: rest, t, total, acc =>
    if total < minC ∧ total < maxC then
      let se := fetch_segment_end t d padding
      if se + 1/2 > maxC then (acc, total)
      else extendLoop padding minC maxC rest se (se + 1/2) (acc ++ [⟨t, se⟩])
    else (acc, total)

/-- Steps 1-2 of `generate_reel`: accumulation from `current_time = 0.1`,
then `total_duration = current_time + 0.5`, then the extension loop over the
remaining available ayahs. -/
def assemble_reel (reqDurs extDurs : List ℚ) (padding minC maxC : ℚ) :
    List AyahRec × ℚ :=
  let r1 := accumulateLoop padding maxC reqDurs (1/10) []
  extendLoop padding minC maxC extDurs r1.2 (r1.2 + 1/2) r1.1

/-- The finalized reel timeline of `generate_reel`: the assembled unit list
and the total duration after the safety-net cap (lines 194-199), which is the
value later handed to the compositor via `set_duration`. -/
def generate_reel_model (reqDurs extDurs : List ℚ) (padding minC maxC : ℚ) :
    List AyahRec × ℚ :=
  let r := assemble_reel reqDurs extDurs padding minC maxC
  (r.1, if r.2 > maxC then maxC else r.2)

/-- `core/video_generator.py::get_audio_duration_moviepy` (lines 76-86): the
probe's fallible file open is the `Except` input; any failure is caught and
the constant `5.0` returned, so the function is total (never propagates an
error to the sequencer). -/
def get_audio_duration_moviepy (probe : Except String ℚ) : ℚ :=
  match probe with
  | .ok d => d
  | .error _ => 5

/-- `core/audio_processor.py::get_audio_duration` (lines 351-366): pydub
length in milliseconds divided by 1000, any failure caught and `5.0`
returned. -/
def get_audio_duration (probe : Except String ℤ) : ℚ :=
  match probe with
  | .ok ms => (ms : ℚ) / 1000
  | .error _ => 5

/-! ## Supporting lemmas -/

theorem segLists_length (words : List String) (n_pages : ℕ) (twc : ℤ) (ntw : ℕ) :
    ∀ (pbs : List Page) (i consumed : ℕ),
      (segLists words n_pages twc ntw pbs i consumed).length = pbs.length := by
  intro pbs
  induction pbs with
  | nil => intro i c; rfl
  | cons pb rest ih =>
      intro i c
      simp only [segLists, List.length_cons]
      rw [ih]

theorem pageFor_page_index (segs : List Seg) (w ps : ℤ) (total : ℚ) (np : ℤ)
    (p : ℕ) : (pageFor segs w ps total np p).page_index = (p : ℤ) := rfl

theorem pageFor_word_start (segs : List Seg) (w ps : ℤ) (total : ℚ) (np : ℤ)
    (p : ℕ) : (pageFor segs w ps total np p).word_start_idx = (p : ℤ) * ps := rfl

theorem pageFor_word_end (segs : List Seg) (w ps : ℤ) (total : ℚ) (np : ℤ)
    (p : ℕ) : (pageFor segs w ps total np p).word_end_idx
      = min (((p : ℤ) + 1) * ps - 1) (w - 1) := rfl

theorem pageFor_start_time (segs : List Seg) (w ps : ℤ) (total : ℚ) (np : ℤ)
    (p : ℕ) : (pageFor segs w ps total np p).start_time
      = if p = 0 then 0
        else (segs.foldl
          (pageScan ((p : ℤ) * ps) (min (((p : ℤ) + 1) * ps - 1) (w - 1)))
          (total, 0)).1 := rfl

theorem pageFor_end_time (segs : List Seg) (w ps : ℤ) (total : ℚ) (np : ℤ)
    (p : ℕ) : (pageFor segs w ps total np p).end_time
      = if (p : ℤ) = np - 1 then total
        else (segs.foldl
          (pageScan ((p : ℤ) * ps) (min (((p : ℤ) + 1) * ps - 1) (w - 1)))
          (total, 0)).2 := rfl

theorem compute_page_boundaries_eq (segs : List Seg) (w : ℤ) (total : ℚ)
    (ps : ℤ) (hs : segs ≠ []) :
    compute_page_boundaries segs w total ps =
      (List.range (numPages w ps).toNat).map
        (pageFor segs w ps total (numPages w ps)) := by
  rw [compute_page_boundaries, if_neg hs]

theorem compute_page_boundaries_nil (w : ℤ) (total : ℚ) (ps : ℤ) :
    compute_page_boundaries [] w total ps = [] := by
  rw [compute_page_boundaries, if_pos rfl]

theorem compute_page_boundaries_length (segs : List Seg) (w : ℤ) (total : ℚ)
    (ps : ℤ) (hs : segs ≠ []) :
    (compute_page_boundaries segs w total ps).length = (numPages w ps).toNat := by
  rw [compute_page_boundaries_eq segs w total ps hs, List.length_map,
    List.length_range]

theorem compute_page_boundaries_get? (segs : List Seg) (w : ℤ) (total : ℚ)
    (ps : ℤ) (hs : segs ≠ []) (i : ℕ) (hi : i < (numPages w ps).toNat) :
    (compute_page_boundaries segs w total ps).get? i =
      some (pageFor segs w ps total (numPages w ps) i) := by
  rw [compute_page_boundaries_eq segs w total ps hs, List.get?_map,
    List.get?_range hi]
  rfl

theorem compute_page_boundaries_get?_inv (segs : List Seg) (w : ℤ) (total : ℚ)
    (ps : ℤ) (i : ℕ) (pg : Page)
    (h : (compute_page_boundaries segs w total ps).get? i = some pg) :
    i < (numPages w ps).toNat ∧
      pg = pageFor segs w ps total (numPages w ps) i := by
  by_cases hs : segs = []
  · rw [hs, compute_page_boundaries_nil, List.get?_nil] at h
    exact absurd h (by simp)
  · have hi : i < (numPages w ps).toNat := by
      have := List.get?_eq_some.mp h
      obtain ⟨hlt, _⟩ := this
      rwa [compute_page_boundaries_length segs w total ps hs] at hlt
    rw [compute_page_boundaries_get? segs w total ps hs i hi] at h
    exact ⟨hi, (Option.some_injective _ h).symm⟩

theorem one_le_numPages (w ps : ℤ) : 1 ≤ numPages w ps := le_max_left _ _

theorem le_numPages_mul (w ps : ℤ) (hps : 1 ≤ ps) :
    w ≤ numPages w ps * ps := by
  have hps' : (0 : ℚ) < (ps : ℚ) := by exact_mod_cast lt_of_lt_of_le zero_lt_one hps
  have h1 : (w : ℚ) / (ps : ℚ) ≤ ((⌈(w : ℚ) / (ps : ℚ)⌉ : ℤ) : ℚ) := Int.le_ceil _
  have h2' : (⌈(w : ℚ) / (ps : ℚ)⌉ : ℤ) ≤ numPages w ps := by
    rw [numPages]; exact le_max_right _ _
  have h2 : ((⌈(w : ℚ) / (ps : ℚ)⌉ : ℤ) : ℚ) ≤ ((numPages w ps : ℤ) : ℚ) := by
    exact_mod_cast h2'
  have h3 : (w : ℚ) ≤ ((numPages w ps : ℤ) : ℚ) * (ps : ℚ) :=
    (div_le_iff₀ hps').mp (h1.trans h2)
  exact_mod_cast h3

theorem numPages_sub_one_mul_lt (w ps : ℤ) (hps : 1 ≤ ps) (hw1 : 1 ≤ w) :
    (numPages w ps - 1) * ps < w := by
  have hps' : (0 : ℚ) < (ps : ℚ) := by exact_mod_cast lt_of_lt_of_le zero_lt_one hps
  have hwq : (0 : ℚ) < (w : ℚ) := by exact_mod_cast lt_of_lt_of_le zero_lt_one hw1
  have hceil : 0 < ⌈(w : ℚ) / (ps : ℚ)⌉ := Int.ceil_pos.mpr (div_pos hwq hps')
  have hnp : numPages w ps = ⌈(w : ℚ) / (ps : ℚ)⌉ := max_eq_right (by omega)
  have h1 : ((numPages w ps : ℤ) : ℚ) < (w : ℚ) / (ps : ℚ) + 1 := by
    rw [hnp]; exact_mod_cast Int.ceil_lt_add_one ((w : ℚ) / (ps : ℚ))
  have h2 : ((numPages w ps : ℤ) : ℚ) - 1 < (w : ℚ) / (ps : ℚ) := by linarith
  have h3 : (((numPages w ps : ℤ) : ℚ) - 1) * (ps : ℚ) < (w : ℚ) := by
    calc (((numPages w ps : ℤ) : ℚ) - 1) * (ps : ℚ)
        < ((w : ℚ) / (ps : ℚ)) * (ps : ℚ) := mul_lt_mul_of_pos_right h2 hps'
      _ = (w : ℚ) := div_mul_cancel₀ _ (ne_of_gt hps')
  have h4 : (((numPages w ps - 1 : ℤ)) : ℚ) * (ps : ℚ) < (w : ℚ) := by
    push_cast
    convert h3 using 2
  exact_mod_cast h4

theorem one_le_w_of_two_le_numPages (w ps : ℤ) (hw : 0 ≤ w)
    (h2 : 2 ≤ numPages w ps) : 1 ≤ w := by
  by_contra h
  have hw0 : w = 0 := by omega
  rw [hw0] at h2
  have : numPages 0 ps = 1 := by
    rw [numPages]
    norm_num
  omega

/-! ## C1: page word ranges partition [0, word_count) -/

/-- C1 (amended): for every *non-empty* timing-segment list, page size ≥ 1 and
word count ≥ 0, the returned pages are non-empty, page `i` carries index `i`
and word range `[i*page_size, min((i+1)*page_size - 1, word_count - 1)]`,
consecutive word ranges are contiguous with strictly increasing page indices,
the ranges jointly cover exactly `[0, word_count)`, and distinct pages'
ranges do not overlap.  (The unamended claim also covers the empty segment
list, where the source returns `[]` and covers nothing.) -/
theorem compute_page_boundaries_partition (sorted_segments : List Seg)
    (word_count page_size : ℤ) (total_duration : ℚ)
    (hs : sorted_segments ≠ []) (hps : 1 ≤ page_size) (hw : 0 ≤ word_count) :
    (compute_page_boundaries sorted_segments word_count total_duration
        page_size ≠ []) ∧
    (∀ (i : ℕ) (pg : Page),
      (compute_page_boundaries sorted_segments word_count total_duration
        page_size).get? i = some pg →
      pg.page_index = (i : ℤ) ∧ pg.word_start_idx = (i : ℤ) * page_size ∧
        pg.word_end_idx
          = min (((i : ℤ) + 1) * page_size - 1) (word_count - 1)) ∧
    (∀ (i : ℕ) (pg pg' : Page),
      (compute_page_boundaries sorted_segments word_count total_duration
        page_size).get? i = some pg →
      (compute_page_boundaries sorted_segments word_count total_duration
        page_size).get? (i + 1) = some pg' →
      pg'.word_start_idx = pg.word_end_idx + 1 ∧ pg.page_index < pg'.page_index) ∧
    (∀ j : ℤ, (0 ≤ j ∧ j < word_count) ↔
      ∃ pg ∈ compute_page_boundaries sorted_segments word_count total_duration
        page_size, pg.word_start_idx ≤ j ∧ j ≤ pg.word_end_idx) ∧
    (∀ (i i' : ℕ) (pg pg' : Page),
      (compute_page_boundaries sorted_segments word_count total_duration
        page_size).get? i = some pg →
      (compute_page_boundaries sorted_segments word_count total_duration
        page_size).get? i' = some pg' → i ≠ i' →
      ∀ j : ℤ, pg.word_start_idx ≤ j → j ≤ pg.word_end_idx →
        ¬(pg'.word_start_idx ≤ j ∧ j ≤ pg'.word_end_idx)) := by
  have hps0 : (0 : ℤ) < page_size := by omega
  have hnp1 := one_le_numPages word_count page_size
  have hlen := compute_page_boundaries_length sorted_segments word_count
    total_duration page_size hs
  refine ⟨?_, ?_, ?_, ?_, ?_⟩
  · intro hnil
    rw [hnil] at hlen
    simp at hlen
    omega
  · intro i pg h
    obtain ⟨hi, rfl⟩ := compute_page_boundaries_get?_inv sorted_segments
      word_count total_duration page_size i pg h
    exact ⟨pageFor_page_index _ _ _ _ _ _, pageFor_word_start _ _ _ _ _ _,
      pageFor_word_end _ _ _ _ _ _⟩
  · intro i pg pg' h h'
    obtain ⟨hi, rfl⟩ := compute_page_boundaries_get?_inv sorted_segments
      word_count total_duration page_size i pg h
    obtain ⟨hi', rfl⟩ := compute_page_boundaries_get?_inv sorted_segments
      word_count total_duration page_size (i + 1) pg' h'
    constructor
    · rw [pageFor_word_start, pageFor_word_end]
      have hw1 : 1 ≤ word_count := by
        refine one_le_w_of_two_le_numPages word_count page_size hw ?_
        omega
      have hlt := numPages_sub_one_mul_lt word_count page_size hps hw1
      have hile : ((i : ℤ) + 1) ≤ numPages word_count page_size - 1 := by omega
      have hmul : ((i : ℤ) + 1) * page_size
          ≤ (numPages word_count page_size - 1) * page_size :=
        mul_le_mul_of_nonneg_right hile (by omega)
      have : ((i : ℤ) + 1) * page_size ≤ word_count - 1 + 1 := by omega
      have hmineq : min (((i : ℤ) + 1) * page_size - 1) (word_count - 1)
          = ((i : ℤ) + 1) * page_size - 1 := min_eq_left (by omega)
      rw [hmineq]
      push_cast
      ring
    · rw [pageFor_page_index, pageFor_page_index]
      exact_mod_cast Nat.lt_succ_self i
  · intro j
    constructor
    · rintro ⟨hj0, hjw⟩
      have hq0 : 0 ≤ j / page_size := Int.ediv_nonneg hj0 (by omega)
      have hqmul : j / page_size * page_size ≤ j :=
        Int.ediv_mul_le j (by omega)
      have hjlt : j < (j / page_size + 1) * page_size :=
        Int.lt_ediv_add_one_mul_self j hps0
      have hwle := le_numPages_mul word_count page_size hps
      have hqlt : j / page_size < numPages word_count page_size := by
        by_contra hcon
        push_neg at hcon
        have : numPages word_count page_size * page_size
            ≤ j / page_size * page_size :=
          mul_le_mul_of_nonneg_right hcon (by omega)
        omega
      refine ⟨pageFor sorted_segments word_count page_size total_duration
        (numPages word_count page_size) (j / page_size).toNat, ?_, ?_, ?_⟩
      · rw [compute_page_boundaries_eq sorted_segments word_count total_duration
          page_size hs]
        exact List.mem_map_of_mem _ (List.mem_range.mpr (by omega))
      · rw [pageFor_word_start, Int.toNat_of_nonneg hq0]
        exact hqmul
      · rw [pageFor_word_end, Int.toNat_of_nonneg hq0]
        exact le_min (by omega) (by omega)
    · rintro ⟨pg, hpg, hle, hge⟩
      rw [compute_page_boundaries_eq sorted_segments word_count total_duration
        page_size hs] at hpg
      obtain ⟨p, hp, rfl⟩ := List.mem_map.mp hpg
      rw [pageFor_word_start] at hle
      rw [pageFor_word_end] at hge
      have h0 : (0 : ℤ) ≤ (p : ℤ) * page_size :=
        mul_nonneg (by positivity) (by omega)
      have h1 : j ≤ word_count - 1 := le_trans hge (min_le_right _ _)
      exact ⟨le_trans h0 hle, by omega⟩
  · intro i i' pg pg' h h' hne j hj1 hj2 hcon
    obtain ⟨hcon1, hcon2⟩ := hcon
    obtain ⟨hi, rfl⟩ := compute_page_boundaries_get?_inv sorted_segments
      word_count total_duration page_size i pg h
    obtain ⟨hi', rfl⟩ := compute_page_boundaries_get?_inv sorted_segments
      word_count total_duration page_size i' pg' h'
    rw [pageFor_word_start] at hj1 hcon1
    rw [pageFor_word_end] at hj2 hcon2
    have hj2' : j ≤ ((i : ℤ) + 1) * page_size - 1 :=
      le_trans hj2 (min_le_left _ _)
    have hcon2' : j ≤ ((i' : ℤ) + 1) * page_size - 1 :=
      le_trans hcon2 (min_le_left _ _)
    rcases Nat.lt_or_ge i i' with hlt | hge
    · have : ((i : ℤ) + 1) ≤ (i' : ℤ) := by exact_mod_cast hlt
      have := mul_le_mul_of_nonneg_right this (le_of_lt hps0)
      omega
    · have hlt' : i' < i := by omega
      have : ((i' : ℤ) + 1) ≤ (i : ℤ) := by exact_mod_cast hlt'
      have := mul_le_mul_of_nonneg_right this (le_of_lt hps0)
      omega

/-- C1, counterexample to the unamended claim: with an empty (but trivially
sorted) segment list and word count 5, the source returns no pages at all, so
the word ranges do not cover `[0, 5)`. -/
theorem compute_page_boundaries_empty_segments_no_cover :
    compute_page_boundaries [] 5 1 2 = [] ∧
    ¬(∀ j : ℤ, (0 ≤ j ∧ j < 5) ↔
        ∃ pg ∈ compute_page_boundaries [] 5 1 2,
          pg.word_start_idx ≤ j ∧ j ≤ pg.word_end_idx) := by
  have h : compute_page_boundaries [] 5 1 2 = [] :=
    compute_page_boundaries_nil 5 1 2
  refine ⟨h, fun hall => ?_⟩
  obtain ⟨pg, hpg, -⟩ := (hall 0).mp (by norm_num)
  rw [h] at hpg
  exact absurd hpg (List.not_mem_nil pg)

theorem compute_page_boundaries_partition_witness :
    (([⟨1, 0, 500⟩] : List Seg) ≠ [] ∧ (1 : ℤ) ≤ 2 ∧ (0 : ℤ) ≤ 5) ∧
    ((0 ≤ (3 : ℤ) ∧ (3 : ℤ) < 5) ↔
      ∃ pg ∈ compute_page_boundaries [⟨1, 0, 500⟩] 5 7 2,
        pg.word_start_idx ≤ 3 ∧ 3 ≤ pg.word_end_idx) :=
  ⟨⟨by decide, by decide, by decide⟩,
    (compute_page_boundaries_partition [⟨1, 0, 500⟩] 5 2 7 (by decide)
      (by decide) (by decide)).2.2.2.1 3⟩

/-! ## C4: boundary pinning -/

/-- C4: for every non-empty segment list (hence non-empty returned page list),
the first page's `start_time` is `0.0` and the last page's `end_time` is the
unit's total duration, regardless of the word timestamps. -/
theorem page_boundary_pinning (sorted_segments : List Seg)
    (word_count page_size : ℤ) (total_duration : ℚ)
    (hs : sorted_segments ≠ []) :
    ∃ p0 pN,
      (compute_page_boundaries sorted_segments word_count total_duration
        page_size).head? = some p0 ∧
      (compute_page_boundaries sorted_segments word_count total_duration
        page_size).getLast? = some pN ∧
      p0.start_time = 0 ∧ pN.end_time = total_duration := by
  have hnp := one_le_numPages word_count page_size
  have hn : 0 < (numPages word_count page_size).toNat := by omega
  have hlen := compute_page_boundaries_length sorted_segments word_count
    total_duration page_size hs
  refine ⟨pageFor sorted_segments word_count page_size total_duration
      (numPages word_count page_size) 0,
    pageFor sorted_segments word_count page_size total_duration
      (numPages word_count page_size) ((numPages word_count page_size).toNat - 1),
    ?_, ?_, ?_, ?_⟩
  · rw [← List.get?_zero]
    exact compute_page_boundaries_get? sorted_segments word_count total_duration
      page_size hs 0 hn
  · rw [List.getLast?_eq_get?, hlen]
    exact compute_page_boundaries_get? sorted_segments word_count total_duration
      page_size hs _ (by omega)
  · rw [pageFor_start_time, if_pos rfl]
  · rw [pageFor_end_time, if_pos (by omega)]

theorem page_boundary_pinning_witness :
    (([⟨1, 0, 500⟩] : List Seg) ≠ []) ∧
    ∃ p0 pN,
      (compute_page_boundaries [⟨1, 0, 500⟩] 5 3 2).head? = some p0 ∧
      (compute_page_boundaries [⟨1, 0, 500⟩] 5 3 2).getLast? = some pN ∧
      p0.start_time = 0 ∧ pN.end_time = 3 :=
  ⟨by decide, page_boundary_pinning [⟨1, 0, 500⟩] 5 2 3 (by decide)⟩

/-! ## C5: the end_time > start_time page invariant -/

theorem pageScan_foldl_le (segs : List Seg) (a b : ℤ) :
    ∀ init : ℚ × ℚ, (segs.foldl (pageScan a b) init).1 ≤ init.1 ∧
      init.2 ≤ (segs.foldl (pageScan a b) init).2 := by
  induction segs with
  | nil => intro init; exact ⟨le_refl _, le_refl _⟩
  | cons s rest ih =>
      intro init
      rw [List.foldl_cons]
      have h1 : (pageScan a b init s).1 ≤ init.1 ∧
          init.2 ≤ (pageScan a b init s).2 := by
        simp only [pageScan]
        split
        · exact ⟨min_le_left _ _, le_max_left _ _⟩
        · exact ⟨le_refl _, le_refl _⟩
      exact ⟨le_trans (ih _).1 h1.1, le_trans h1.2 (ih _).2⟩

theorem pageScan_foldl_mem (segs : List Seg) (a b : ℤ) :
    ∀ init : ℚ × ℚ, ∀ s ∈ segs, a ≤ s.word_index - 1 → s.word_index - 1 ≤ b →
      (segs.foldl (pageScan a b) init).1 ≤ (s.start_ms : ℚ) / 1000 ∧
      (s.end_ms : ℚ) / 1000 ≤ (segs.foldl (pageScan a b) init).2 := by
  induction segs with
  | nil => intro init s hs; exact absurd hs (List.not_mem_nil s)
  | cons s0 rest ih =>
      intro init s hs ha hb
      rw [List.foldl_cons]
      rcases List.mem_cons.mp hs with rfl | hmem
      · have hscan : (pageScan a b init s).1 ≤ (s.start_ms : ℚ) / 1000 ∧
            (s.end_ms : ℚ) / 1000 ≤ (pageScan a b init s).2 := by
          simp only [pageScan]
          rw [if_pos ⟨ha, hb⟩]
          exact ⟨min_le_right _ _, le_max_right _ _⟩
        have hle := pageScan_foldl_le rest a b (pageScan a b init s)
        exact ⟨le_trans hle.1 hscan.1, le_trans hscan.2 hle.2⟩
      · exact ih _ s hmem ha hb

/-- C5 (amended): a page into whose word range at least one timing segment
falls satisfies `end_time > start_time`, provided the segments have
`0 ≤ start_ms < end_ms` and start before the unit ends.  (The unamended
claim extends this to *every* page including a middle page with no timing
segments in range; the source instead leaves such a page with the fallback
`start_time = total_duration` and `end_time = 0.0`, violating the
invariant — see the counterexample.) -/
theorem page_time_invariant_on_covered_pages (sorted_segments : List Seg)
    (word_count page_size : ℤ) (total_duration : ℚ)
    (hseg : ∀ s ∈ sorted_segments, 0 ≤ s.start_ms ∧ s.start_ms < s.end_ms ∧
      (s.start_ms : ℚ) / 1000 < total_duration) :
    ∀ pg ∈ compute_page_boundaries sorted_segments word_count total_duration
        page_size,
      (∃ s ∈ sorted_segments, pg.word_start_idx ≤ s.word_index - 1 ∧
        s.word_index - 1 ≤ pg.word_end_idx) →
      pg.start_time < pg.end_time := by
  intro pg hpg hcov
  by_cases hs : sorted_segments = []
  · rw [hs, compute_page_boundaries_nil] at hpg
    exact absurd hpg (List.not_mem_nil pg)
  rw [compute_page_boundaries_eq _ _ _ _ hs] at hpg
  obtain ⟨p, hp, rfl⟩ := List.mem_map.mp hpg
  obtain ⟨s, hsmem, ha, hb⟩ := hcov
  rw [pageFor_word_start] at ha
  rw [pageFor_word_end] at hb
  obtain ⟨h0, hlt, hltT⟩ := hseg s hsmem
  have hfold := pageScan_foldl_mem sorted_segments ((p : ℤ) * page_size)
    (min (((p : ℤ) + 1) * page_size - 1) (word_count - 1))
    (total_duration, 0) s hsmem ha hb
  have hss : (0 : ℚ) ≤ (s.start_ms : ℚ) / 1000 := by
    apply div_nonneg _ (by norm_num)
    exact_mod_cast h0
  have hse : (s.start_ms : ℚ) / 1000 < (s.end_ms : ℚ) / 1000 := by
    have h : (s.start_ms : ℚ) < (s.end_ms : ℚ) := by exact_mod_cast hlt
    linarith
  rw [pageFor_start_time, pageFor_end_time]
  by_cases hp0 : p = 0 <;>
    by_cases hpl : (p : ℤ) = numPages word_count page_size - 1
  · rw [if_pos hp0, if_pos hpl]
    linarith
  · rw [if_neg hpl, if_pos hp0]
    linarith [hfold.2]
  · rw [if_pos hpl, if_neg hp0]
    linarith [hfold.1]
  · rw [if_neg hpl, if_neg hp0]
    linarith [hfold.1, hfold.2]

/-- C5, counterexample to the unamended claim: word count 25, page size 12
gives three pages; the only timing segments hit pages 0 and 2, so the middle
page keeps the fallback `start_time = total_duration = 10` and
`end_time = 0.0`, and `end_time > start_time` fails. -/
theorem page_time_invariant_counterexample :
    ∃ pg ∈ compute_page_boundaries [⟨1, 0, 100⟩, ⟨25, 200, 300⟩] 25 10 12,
      ¬(pg.start_time < pg.end_time) := by
  have hnp : numPages 25 12 = 3 := by
    have hc : ⌈((25 : ℤ) : ℚ) / ((12 : ℤ) : ℚ)⌉ = 3 := by
      rw [Int.ceil_eq_iff]
      norm_num
    rw [numPages, hc]
    decide
  refine ⟨pageFor [⟨1, 0, 100⟩, ⟨25, 200, 300⟩] 25 12 10 (numPages 25 12) 1,
    ?_, ?_⟩
  · rw [compute_page_boundaries_eq _ _ _ _ (by decide), hnp]
    exact List.mem_map_of_mem _ (List.mem_range.mpr (by norm_num))
  · rw [pageFor_start_time, pageFor_end_time, hnp]
    simp only [List.foldl_cons, List.foldl_nil, pageScan]
    norm_num [Int.min_def]

theorem page_time_invariant_witness :
    (∀ s ∈ ([⟨1, 0, 500⟩] : List Seg), 0 ≤ s.start_ms ∧ s.start_ms < s.end_ms ∧
      (s.start_ms : ℚ) / 1000 < 3) ∧
    ∀ pg ∈ compute_page_boundaries [⟨1, 0, 500⟩] 5 3 2,
      (∃ s ∈ ([⟨1, 0, 500⟩] : List Seg), pg.word_start_idx ≤ s.word_index - 1 ∧
        s.word_index - 1 ≤ pg.word_end_idx) →
      pg.start_time < pg.end_time := by
  have h : ∀ s ∈ ([⟨1, 0, 500⟩] : List Seg), 0 ≤ s.start_ms ∧
      s.start_ms < s.end_ms ∧ (s.start_ms : ℚ) / 1000 < 3 := by
    intro s hs
    rw [List.mem_singleton] at hs
    subst hs
    exact ⟨by decide, by decide, by norm_num⟩
  exact ⟨h, page_time_invariant_on_covered_pages [⟨1, 0, 500⟩] 5 2 3 h⟩

/-! ## C6: monotonic accumulation of the display text -/

theorem sjoin_cons_cons (x y : String) (l : List String) :
    sjoin (x :: y :: l) = x ++ " " ++ sjoin (y :: l) := rfl

theorem sjoin_append_one (a : List String) (w : String) (ha : a ≠ []) :
    sjoin (a ++ [w]) = sjoin a ++ " " ++ w := by
  induction a with
  | nil => exact absurd rfl ha
  | cons x xs ih =>
      cases xs with
      | nil => rfl
      | cons y ys =>
          calc sjoin ((x :: y :: ys) ++ [w])
              = x ++ " " ++ sjoin ((y :: ys) ++ [w]) := rfl
            _ = x ++ " " ++ (sjoin (y :: ys) ++ " " ++ w) := by
                rw [ih (List.cons_ne_nil y ys)]
            _ = sjoin (x :: y :: ys) ++ " " ++ w := by
                rw [sjoin_cons_cons]
                simp [String.append_assoc]

/-- The relation holding between consecutive emitted text states: when the
page index is unchanged the display gains exactly one (nonempty) word at the
end; when it changes it increments by one and the display is a fresh
single-word string. -/
def stateStep (s1 s2 : TState) : Prop :=
  (s2.page_index = s1.page_index →
    ∃ w, w ≠ "" ∧ s2.display = s1.display ++ " " ++ w) ∧
  (s2.page_index ≠ s1.page_index →
    s2.page_index = s1.page_index + 1 ∧ ∃ w, w ≠ "" ∧ s2.display = w)

theorem buildStatesAux_head (wm : ℤ → String) (total : ℚ) (ps : ℕ) :
    ∀ (segs : List Seg) (cw : List String) (s : TState),
      (buildStatesAux wm total ps segs cw).head? = some s →
      ∃ w, w ≠ "" ∧ s.page_index = cw.length / ps ∧
        s.display = sjoin ((cw ++ [w]).drop ((cw.length / ps) * ps)) := by
  intro segs
  induction segs with
  | nil =>
      intro cw s h
      exact absurd h (by simp [buildStatesAux])
  | cons seg rest ih =>
      intro cw s h
      simp only [buildStatesAux] at h
      by_cases ht : wm seg.word_index = ""
      · rw [if_pos ht] at h
        exact ih cw s h
      · rw [if_neg ht] at h
        rw [List.head?_cons, Option.some_inj] at h
        refine ⟨wm seg.word_index, ht, ?_, ?_⟩
        · rw [← h]
          simp
        · rw [← h]
          simp

theorem buildStatesAux_chain (wm : ℤ → String) (total : ℚ) (ps : ℕ) :
    ∀ (segs : List Seg) (cw : List String),
      List.Chain' stateStep (buildStatesAux wm total ps segs cw) := by
  intro segs
  induction segs with
  | nil => intro cw; simp [buildStatesAux]
  | cons seg rest ih =>
      intro cw
      simp only [buildStatesAux]
      by_cases ht : wm seg.word_index = ""
      · rw [if_pos ht]; exact ih cw
      · rw [if_neg ht]
        rw [List.chain'_cons']
        refine ⟨?_, ih _⟩
        intro s2 hs2
        have hh : (buildStatesAux wm total ps rest
            (cw ++ [wm seg.word_index])).head? = some s2 := hs2
        obtain ⟨w2, hw2, hpage2, hdisp2⟩ :=
          buildStatesAux_head wm total ps rest _ s2 hh
        have hlen : (cw ++ [wm seg.word_index]).length = cw.length + 1 := by
          simp
        rw [hlen] at hpage2 hdisp2
        dsimp only [stateStep]
        rw [hlen]
        simp only [Nat.add_sub_cancel]
        have hle : cw.length / ps * ps ≤ cw.length :=
          Nat.div_mul_le_self _ _
        constructor
        · intro hsame
          have hsame' : (cw.length + 1) / ps = cw.length / ps := by
            rw [← hpage2, hsame]
          refine ⟨w2, hw2, ?_⟩
          rw [hdisp2, hsame']
          have hle' : cw.length / ps * ps
              ≤ (cw ++ [wm seg.word_index]).length := by
            rw [hlen]; omega
          rw [List.drop_append_of_le_length hle']
          have hne : (cw ++ [wm seg.word_index]).drop (cw.length / ps * ps)
              ≠ [] := by
            intro hcon
            have hlencon := congrArg List.length hcon
            rw [List.length_drop, hlen] at hlencon
            simp at hlencon
            omega
          rw [sjoin_append_one _ _ hne]
        · intro hdiff
          have hd : (cw.length + 1) / ps ≠ cw.length / ps := by
            rw [← hpage2]
            exact hdiff
          have hdvd : ps ∣ cw.length + 1 := by
            by_contra hcon
            rw [Nat.succ_div, if_neg hcon] at hd
            simp at hd
          have hstep : (cw.length + 1) / ps = cw.length / ps + 1 := by
            rw [Nat.succ_div, if_pos hdvd]
          refine ⟨by rw [hpage2, hstep], w2, hw2, ?_⟩
          rw [hdisp2, hstep]
          have hmul : (cw.length / ps + 1) * ps = cw.length + 1 := by
            rw [← hstep, Nat.div_mul_cancel hdvd]
          rw [hmul, ← hlen, List.drop_left]
          rfl

/-- C6: in the text-state list built by `create_accumulating_text_lines`,
every pair of consecutive states with equal `page_index` differs by exactly
one appended (nonempty) word, the earlier display being a word-prefix of the
later; and whenever the `page_index` changes between consecutive states it
increments by one and the display resets to a fresh single-word string. -/
theorem accumulating_states_monotone (sorted_segments : List Seg)
    (words : List Word) (total_duration : ℚ) (page_size : ℕ) :
    List.Chain' stateStep
      (accumulating_text_states sorted_segments words total_duration page_size) :=
  buildStatesAux_chain (word_map words) total_duration page_size
    sorted_segments []

/-! ## C3: translation splitting is lossless -/

theorem mk_data (s : String) : (⟨s.data⟩ : String) = s := rfl

theorem splitWsAux_append_nonws (w : List Char)
    (hw : ∀ c ∈ w, c.isWhitespace = false) :
    ∀ (l cur : List Char),
      splitWsAux (w ++ l) cur = splitWsAux l (w.reverse ++ cur) := by
  induction w with
  | nil => intro l cur; simp
  | cons c cs ih =>
      intro l cur
      have hc : c.isWhitespace = false := hw c (List.mem_cons_self c cs)
      have ih' := ih (fun c' hc' => hw c' (List.mem_cons_of_mem c hc'))
      simp only [List.cons_append]
      rw [show splitWsAux (c :: (cs ++ l)) cur = splitWsAux (cs ++ l) (c :: cur)
        from by simp [splitWsAux, hc]]
      rw [ih' l (c :: cur)]
      congr 1
      simp

theorem splitWsAux_space (l cur : List Char) :
    splitWsAux (' ' :: l) cur =
      if cur = [] then splitWsAux l [] else cur.reverse :: splitWsAux l [] := by
  have h : (' ' : Char).isWhitespace = true := by decide
  simp [splitWsAux, h]

theorem splitWsAux_nil_cur (cur : List Char) :
    splitWsAux [] cur = if cur = [] then [] else [cur.reverse] := rfl

theorem splitWsAux_single (w : List Char) (hw : w ≠ [])
    (hnws : ∀ c ∈ w, c.isWhitespace = false) :
    splitWsAux w [] = [w] := by
  have h := splitWsAux_append_nonws w hnws [] []
  rw [List.append_nil, List.append_nil] at h
  rw [h, splitWsAux_nil_cur, if_neg (by simpa using hw), List.reverse_reverse]

theorem splitWsAux_emit (w : List Char) (hw : w ≠ [])
    (hnws : ∀ c ∈ w, c.isWhitespace = false) (l : List Char) :
    splitWsAux (w ++ ' ' :: l) [] = w :: splitWsAux l [] := by
  rw [splitWsAux_append_nonws w hnws (' ' :: l) [], List.append_nil,
    splitWsAux_space, if_neg (by simpa using hw), List.reverse_reverse]

theorem splitWsAux_sound : ∀ (l cur : List Char),
    (∀ c ∈ cur, c.isWhitespace = false) →
    ∀ w ∈ splitWsAux l cur, w ≠ [] ∧ ∀ c ∈ w, c.isWhitespace = false := by
  intro l
  induction l with
  | nil =>
      intro cur hcur w hw
      rw [splitWsAux_nil_cur] at hw
      by_cases hc : cur = []
      · rw [if_pos hc] at hw
        simp at hw
      · rw [if_neg hc] at hw
        rw [List.mem_singleton] at hw
        subst hw
        refine ⟨by simpa using hc, ?_⟩
        intro c hcmem
        exact hcur c (List.mem_reverse.mp hcmem)
  | cons c cs ih =>
      intro cur hcur w hw
      by_cases hws : c.isWhitespace = true
      · rw [show splitWsAux (c :: cs) cur
            = if cur = [] then splitWsAux cs []
              else cur.reverse :: splitWsAux cs []
          from by simp [splitWsAux, hws]] at hw
        by_cases hc : cur = []
        · rw [if_pos hc] at hw
          exact ih [] (by simp) w hw
        · rw [if_neg hc] at hw
          rcases List.mem_cons.mp hw with rfl | hmem
          · refine ⟨by simpa using hc, ?_⟩
            intro c' hc'
            exact hcur c' (List.mem_reverse.mp hc')
          · exact ih [] (by simp) w hmem
      · have hws' : c.isWhitespace = false := by simpa using hws
        rw [show splitWsAux (c :: cs) cur = splitWsAux cs (c :: cur)
          from by simp [splitWsAux, hws']] at hw
        refine ih (c :: cur) ?_ w hw
        intro c' hc'
        rcases List.mem_cons.mp hc' with rfl | hmem
        · exact hws'
        · exact hcur c' hmem

theorem pySplit_words (s : String) :
    ∀ w ∈ pySplit s, w.data ≠ [] ∧ ∀ c ∈ w.data, c.isWhitespace = false := by
  intro w hw
  rw [pySplit] at hw
  obtain ⟨l, hl, rfl⟩ := List.mem_map.mp hw
  exact splitWsAux_sound s.data [] (by simp) l hl

theorem pySplit_sjoin : ∀ ws : List String,
    (∀ w ∈ ws, w.data ≠ [] ∧ ∀ c ∈ w.data, c.isWhitespace = false) →
    pySplit (sjoin ws) = ws := by
  intro ws
  induction ws with
  | nil => intro h; rfl
  | cons w ws ih =>
      intro h
      obtain ⟨hne, hnws⟩ := h w (List.mem_cons_self w ws)
      cases ws with
      | nil =>
          show pySplit (sjoin [w]) = [w]
          rw [show sjoin [w] = w from rfl, pySplit,
            splitWsAux_single w.data hne hnws]
          simp [mk_data]
      | cons w2 ws2 =>
          rw [sjoin_cons_cons, pySplit]
          have hdata : (w ++ " " ++ sjoin (w2 :: ws2)).data
              = w.data ++ ' ' :: (sjoin (w2 :: ws2)).data := by
            rw [String.data_append, String.data_append, List.append_assoc]
            rfl
          rw [hdata, splitWsAux_emit w.data hne hnws, List.map_cons, mk_data]
          congr 1
          exact ih (fun w' hw' => h w' (List.mem_cons_of_mem w hw'))

theorem sjoin_ne_empty (ws : List String) (h : ∀ w ∈ ws, w.data ≠ [])
    (hne : ws ≠ []) : sjoin ws ≠ "" := by
  cases ws with
  | nil => exact absurd rfl hne
  | cons w ws' =>
      cases ws' with
      | nil =>
          intro hcon
          exact h w (List.mem_cons_self w []) (congrArg String.data hcon)
      | cons w2 ws2 =>
          intro hcon
          rw [sjoin_cons_cons] at hcon
          have hd := congrArg String.data hcon
          rw [String.data_append, String.data_append,
            show ("" : String).data = [] from rfl] at hd
          simp [List.append_eq_nil] at hd

theorem flatten_filter_ne_nil : ∀ ls : List (List String),
    (ls.filter (fun l => decide (l ≠ []))).flatten = ls.flatten := by
  intro ls
  induction ls with
  | nil => rfl
  | cons l ls ih =>
      rw [List.filter_cons]
      by_cases hl : l = []
      · subst hl
        rw [if_neg (by decide), ih, List.flatten_cons, List.nil_append]
      · rw [if_pos (by simpa using decide_eq_true hl), List.flatten_cons,
          List.flatten_cons, ih]

theorem sjoin_append_parts : ∀ a b : List String, a ≠ [] → b ≠ [] →
    sjoin (a ++ b) = sjoin a ++ " " ++ sjoin b := by
  intro a
  induction a with
  | nil => intro b ha hb; exact absurd rfl ha
  | cons x xs ih =>
      intro b ha hb
      cases xs with
      | nil =>
          cases b with
          | nil => exact absurd rfl hb
          | cons y ys =>
              rw [show ([x] ++ y :: ys) = x :: y :: ys from rfl, sjoin_cons_cons]
              rfl
      | cons y ys =>
          rw [show ((x :: y :: ys) ++ b) = x :: y :: (ys ++ b) from rfl,
            sjoin_cons_cons,
            show (y :: (ys ++ b)) = (y :: ys) ++ b from rfl,
            ih b (List.cons_ne_nil y ys) hb, sjoin_cons_cons]
          simp [String.append_assoc]

theorem sjoin_map_sjoin : ∀ groups : List (List String),
    (∀ g ∈ groups, g ≠ []) →
    sjoin (groups.map sjoin) = sjoin groups.flatten := by
  intro groups
  induction groups with
  | nil => intro h; rfl
  | cons g gs ih =>
      intro h
      cases gs with
      | nil =>
          show sjoin [sjoin g] = sjoin ([g] : List (List String)).flatten
          rw [show ([g] : List (List String)).flatten = g ++ [] from rfl,
            List.append_nil]
          rfl
      | cons g2 gs2 =>
          have hg := h g (List.mem_cons_self g (g2 :: gs2))
          have hrest : ∀ g' ∈ g2 :: gs2, g' ≠ [] :=
            fun g' hg' => h g' (List.mem_cons_of_mem g hg')
          have hfl : (g2 :: gs2).flatten ≠ [] := by
            rw [List.flatten_cons]
            intro hcon
            exact hrest g2 (List.mem_cons_self _ _)
              (List.append_eq_nil.mp hcon).1
          rw [List.map_cons, List.map_cons, sjoin_cons_cons, ← List.map_cons,
            ih hrest,
            ← sjoin_append_parts g (g2 :: gs2).flatten hg hfl,
            ← List.flatten_cons]

theorem take_append_drop_length {α : Type} (n : ℕ) (l : List α) :
    l.take n ++ l.drop (l.take n).length = l := by
  rcases le_total n l.length with h | h
  · rw [List.length_take, min_eq_left h, List.take_append_drop]
  · rw [List.take_of_length_le h, List.drop_length, List.append_nil]

theorem segLists_flatten (words : List String) (n_pages : ℕ) (twc : ℤ)
    (ntw : ℕ) : ∀ (pbs : List Page) (i consumed : ℕ), pbs ≠ [] →
    i + pbs.length = n_pages →
    (segLists words n_pages twc ntw pbs i consumed).flatten
      = words.drop consumed := by
  intro pbs
  induction pbs with
  | nil => intro i c h _; exact absurd rfl h
  | cons pb rest ih =>
      intro i c _ hlen
      simp only [segLists]
      cases rest with
      | nil =>
          rw [if_pos (by simp only [List.length_singleton] at hlen; omega)]
          simp only [segLists, List.flatten_cons, List.flatten_nil,
            List.append_nil]
      | cons pb2 rest2 =>
          have hi : ¬(i = n_pages - 1) := by
            simp only [List.length_cons] at hlen
            omega
          have hlen' : (i + 1) + (pb2 :: rest2).length = n_pages := by
            simp only [List.length_cons] at hlen ⊢
            omega
          rw [if_neg hi, List.flatten_cons,
            ih (i + 1) _ (List.cons_ne_nil _ _) hlen', ← List.drop_drop]
          exact take_append_drop_length _ _

theorem filter_ne_empty_replicate (n : ℕ) :
    (List.replicate n ("" : String)).filter (fun seg => decide (seg ≠ ""))
      = [] := by
  induction n with
  | zero => rfl
  | succ n ih =>
      rw [List.replicate_succ, List.filter_cons, if_neg (by decide)]
      exact ih

/-- C3: for every translation and every page list with more than one page,
joining the non-empty returned segments with single spaces reproduces the
original translation's word sequence exactly; moreover (for a non-empty
translation) the returned segments are exactly the space-joins of the
consecutive word slices taken by the loop, whose concatenation is the whole
word list (the last page absorbing all remaining words). -/
theorem split_translation_lossless (translation : String)
    (page_boundaries : List Page) (total_word_count : ℤ)
    (hpg : 1 < page_boundaries.length) :
    pySplit (sjoin ((split_translation_by_pages translation page_boundaries
        total_word_count).filter (fun seg => decide (seg ≠ ""))))
      = pySplit translation ∧
    (translation ≠ "" →
      (segLists (pySplit translation) page_boundaries.length total_word_count
          (pySplit translation).length page_boundaries 0 0).flatten
        = pySplit translation ∧
      split_translation_by_pages translation page_boundaries total_word_count
        = (segLists (pySplit translation) page_boundaries.length
            total_word_count (pySplit translation).length page_boundaries 0
            0).map sjoin) := by
  have hne : page_boundaries ≠ [] := by
    intro hcon
    rw [hcon] at hpg
    simp at hpg
  by_cases htr : translation = ""
  · subst htr
    refine ⟨?_, fun hcon => absurd rfl hcon⟩
    rw [split_translation_by_pages, if_pos (Or.inl rfl),
      filter_ne_empty_replicate]
    rfl
  · have hsplit_eq : split_translation_by_pages translation page_boundaries
        total_word_count = (segLists (pySplit translation)
          page_boundaries.length total_word_count (pySplit translation).length
          page_boundaries 0 0).map sjoin := by
      rw [split_translation_by_pages, if_neg (not_or.mpr ⟨htr, hne⟩)]
      simp only []
      rw [if_neg (by omega)]
      rw [List.length_map, segLists_length, Nat.sub_self, List.replicate_zero,
        List.append_nil]
    have hjoin : (segLists (pySplit translation) page_boundaries.length
        total_word_count (pySplit translation).length page_boundaries 0
        0).flatten = pySplit translation := by
      rw [segLists_flatten (pySplit translation) page_boundaries.length
        total_word_count (pySplit translation).length page_boundaries 0 0 hne
        (Nat.zero_add _), List.drop_zero]
    refine ⟨?_, fun _ => ⟨hjoin, hsplit_eq⟩⟩
    have hwords := pySplit_words translation
    have hmem : ∀ l ∈ segLists (pySplit translation) page_boundaries.length
        total_word_count (pySplit translation).length page_boundaries 0 0,
        ∀ w ∈ l, w.data ≠ [] ∧ ∀ c ∈ w.data, c.isWhitespace = false := by
      intro l hl w hw
      exact hwords w (hjoin ▸ List.mem_flatten.mpr ⟨l, hl, hw⟩)
    rw [hsplit_eq, List.filter_map]
    have hcongr : (segLists (pySplit translation) page_boundaries.length
          total_word_count (pySplit translation).length page_boundaries 0
          0).filter ((fun seg => decide (seg ≠ "")) ∘ sjoin)
        = (segLists (pySplit translation) page_boundaries.length
            total_word_count (pySplit translation).length page_boundaries 0
            0).filter (fun l => decide (l ≠ [])) := by
      apply List.filter_congr
      intro l hl
      simp only [Function.comp]
      by_cases hl0 : l = []
      · subst hl0
        decide
      · have h1 : sjoin l ≠ "" :=
          sjoin_ne_empty l (fun w hw => (hmem l hl w hw).1) hl0
        simp [h1, hl0]
    rw [hcongr]
    have hgroups : ∀ g ∈ (segLists (pySplit translation)
        page_boundaries.length total_word_count (pySplit translation).length
        page_boundaries 0 0).filter (fun l => decide (l ≠ [])), g ≠ [] := by
      intro g hg
      simpa using List.of_mem_filter hg
    rw [sjoin_map_sjoin _ hgroups, flatten_filter_ne_nil, hjoin]
    exact pySplit_sjoin (pySplit translation) hwords

theorem split_translation_lossless_witness :
    1 < ([⟨0, 0, 1, 0, 5⟩, ⟨1, 1, 2, 6, 9⟩] : List Page).length ∧
    pySplit (sjoin ((split_translation_by_pages "in the name"
        [⟨0, 0, 1, 0, 5⟩, ⟨1, 1, 2, 6, 9⟩] 10).filter
        (fun seg => decide (seg ≠ ""))))
      = pySplit "in the name" :=
  ⟨by decide,
    (split_translation_lossless "in the name"
      [⟨0, 0, 1, 0, 5⟩, ⟨1, 1, 2, 6, 9⟩] 10 (by decide)).1⟩

/-! ## C10: timeline state lookup -/

theorem buildStatesAux_starts_sublist (wm : ℤ → String) (total : ℚ) (ps : ℕ) :
    ∀ (segs : List Seg) (cw : List String),
      (((buildStatesAux wm total ps segs cw).map
        (fun s => s.start_s))).Sublist
        (segs.map (fun seg => (seg.start_ms : ℚ) / 1000)) := by
  intro segs
  induction segs with
  | nil => intro cw; simp [buildStatesAux]
  | cons seg rest ih =>
      intro cw
      simp only [buildStatesAux, List.map_cons]
      by_cases ht : wm seg.word_index = ""
      · rw [if_pos ht]
        exact (ih cw).cons _
      · rw [if_neg ht]
        rw [List.map_cons]
        exact (ih _).cons₂ _

theorem states_starts_pairwise (sorted_segments : List Seg) (words : List Word)
    (total : ℚ) (ps : ℕ)
    (hsorted : List.Chain' (fun a b : Seg => a.start_ms ≤ b.start_ms)
      sorted_segments) :
    List.Pairwise (fun s1 s2 : TState => s1.start_s ≤ s2.start_s)
      (accumulating_text_states sorted_segments words total ps) := by
  haveI : IsTrans Seg (fun a b : Seg => a.start_ms ≤ b.start_ms) :=
    ⟨fun _ _ _ h1 h2 => le_trans h1 h2⟩
  have hp : List.Pairwise (fun a b : Seg => a.start_ms ≤ b.start_ms)
      sorted_segments := List.chain'_iff_pairwise.mp hsorted
  have hq : List.Pairwise (fun a b : ℚ => a ≤ b)
      (sorted_segments.map (fun seg => (seg.start_ms : ℚ) / 1000)) := by
    rw [List.pairwise_map]
    refine hp.imp ?_
    intro a b h
    have hc : (a.start_ms : ℚ) ≤ (b.start_ms : ℚ) := by exact_mod_cast h
    linarith
  have hsub := buildStatesAux_starts_sublist (word_map words) total ps
    sorted_segments []
  have hps := List.Pairwise.sublist hsub hq
  rw [List.pairwise_map] at hps
  exact hps

theorem pairwise_head_getLast {α : Type} {R : α → α → Prop} :
    ∀ (l : List α) (a b : α), List.Pairwise R l → l.head? = some a →
      l.getLast? = some b → a = b ∨ R a b := by
  intro l a b hp hh hl
  cases l with
  | nil => simp at hh
  | cons x xs =>
      rw [List.head?_cons, Option.some_inj] at hh
      subst hh
      cases xs with
      | nil =>
          left
          have hx : ([x] : List α).getLast? = some x := rfl
          rw [hx, Option.some_inj] at hl
          exact hl
      | cons y ys =>
          right
          have hb : b ∈ y :: ys := by
            rw [List.getLast?_cons_cons] at hl
            exact List.mem_of_mem_getLast? hl
          exact (List.pairwise_cons.mp hp).1 b hb

/-- C10: on the state list built by `create_accumulating_text_lines` from
segments sorted by `start_ms`, the lookup `_get_state_at` returns the empty
fully-transparent frame for any query time strictly before the first state's
start (and inside no state's interval); the return-the-last-state rule fires
only at or after the last state's start (given no interval matches); and when
some interval contains the query time, the first matching state in list order
wins. -/
theorem get_state_at_lookup_spec (sorted_segments : List Seg)
    (words : List Word) (total_duration : ℚ) (page_size : ℕ)
    (hsorted : List.Chain' (fun a b : Seg => a.start_ms ≤ b.start_ms)
      sorted_segments) :
    (∀ (t : ℚ) (s0 : TState),
      (accumulating_text_states sorted_segments words total_duration
        page_size).head? = some s0 →
      t < s0.start_s →
      (∀ s ∈ accumulating_text_states sorted_segments words total_duration
        page_size, ¬(s.start_s ≤ t ∧ t < s.end_s)) →
      get_state_at (accumulating_text_states sorted_segments words
        total_duration page_size) t = FrameRes.empty) ∧
    (∀ (t : ℚ) (sl : TState),
      (accumulating_text_states sorted_segments words total_duration
        page_size).getLast? = some sl →
      (∀ s ∈ accumulating_text_states sorted_segments words total_duration
        page_size, ¬(s.start_s ≤ t ∧ t < s.end_s)) →
      sl.start_s ≤ t →
      get_state_at (accumulating_text_states sorted_segments words
        total_duration page_size) t = FrameRes.text sl.display) ∧
    (∀ (t : ℚ) (s : TState),
      (accumulating_text_states sorted_segments words total_duration
        page_size).find? (state_match t) = some s →
      get_state_at (accumulating_text_states sorted_segments words
        total_duration page_size) t = FrameRes.text s.display) := by
  refine ⟨?_, ?_, ?_⟩
  · intro t s0 h0 hlt hnone
    have hfind : (accumulating_text_states sorted_segments words total_duration
        page_size).find? (state_match t) = none := by
      rw [List.find?_eq_none]
      intro x hx
      simpa [state_match] using hnone x hx
    rw [get_state_at, hfind]
    cases hL : (accumulating_text_states sorted_segments words total_duration
        page_size).getLast? with
    | none =>
        rfl
    | some sl =>
        have hpw := states_starts_pairwise sorted_segments words total_duration
          page_size hsorted
        have hrel := pairwise_head_getLast _ s0 sl hpw h0 hL
        have hslt : t < sl.start_s := by
          rcases hrel with rfl | hle
          · exact hlt
          · exact lt_of_lt_of_le hlt hle
        dsimp only
        rw [if_neg (not_le.mpr hslt)]
  · intro t sl hl hnone hle
    have hfind : (accumulating_text_states sorted_segments words total_duration
        page_size).find? (state_match t) = none := by
      rw [List.find?_eq_none]
      intro x hx
      simpa [state_match] using hnone x hx
    rw [get_state_at, hfind, hl]
    dsimp only
    rw [if_pos hle]
  · intro t s h
    rw [get_state_at, h]

theorem get_state_at_lookup_spec_witness :
    List.Chain' (fun a b : Seg => a.start_ms ≤ b.start_ms) [⟨1, 2000, 3000⟩] ∧
    get_state_at (accumulating_text_states [⟨1, 2000, 3000⟩] [⟨1, "a"⟩] 4 12) 1
      = FrameRes.empty := by
  have hch : List.Chain' (fun a b : Seg => a.start_ms ≤ b.start_ms)
      [⟨1, 2000, 3000⟩] := List.chain'_singleton _
  have hwm : word_map [⟨1, "a"⟩] 1 = "a" := rfl
  have hstates : accumulating_text_states [⟨1, 2000, 3000⟩] [⟨1, "a"⟩] 4 12
      = [⟨2, 4, 0, "a"⟩] := by
    rw [accumulating_text_states]
    simp only [buildStatesAux, hwm]
    rw [if_neg (by decide : ¬("a" : String) = "")]
    norm_num [sjoin]
  refine ⟨hch, (get_state_at_lookup_spec [⟨1, 2000, 3000⟩] [⟨1, "a"⟩] 4 12
    hch).1 1 ⟨2, 4, 0, "a"⟩ ?_ ?_ ?_⟩
  · rw [hstates]
    rfl
  · decide
  · rw [hstates]
    intro s hs
    rw [List.mem_singleton] at hs
    subst hs
    decide

/-! ## C7: the crossfade blend -/

/-- C7: inside the first transition window containing `t`, `make_frame`
blends the state active at `transition - 0.01` into the state active at
`transition + 0.01` with factor
`clamp((t - (transition - d/2)) / d, 0, 1)`; the factor is `0` at the window
start and `1` at the window end, strictly increasing across the window (for
`d > 0`), and the per-channel blend with factor `0` (resp. `1`) reproduces
the outgoing (resp. incoming) channel exactly; outside every window the
frame is the active state unmodified. -/
theorem crossfade_blend_spec (states : List TState) (transitions : List ℚ)
    (d : ℚ) (hd : 0 < d) :
    (∀ t T, transitions.find? (in_window d t) = some T →
      make_frame states transitions d t =
        FrameOut.blend (stateFrameLast states (T - 1/100))
          (stateFrameLast states (T + 1/100)) (blend_factor T d t)) ∧
    (∀ T : ℚ, blend_factor T d (T - d / 2) = 0) ∧
    (∀ T : ℚ, blend_factor T d (T + d / 2) = 1) ∧
    (∀ T t1 t2 : ℚ, T - d / 2 ≤ t1 → t1 < t2 → t2 ≤ T + d / 2 →
      blend_factor T d t1 < blend_factor T d t2) ∧
    (∀ o i : ℚ, alphaBlend o i 0 = o ∧ alphaBlend o i 1 = i) ∧
    (∀ t, transitions.find? (in_window d t) = none →
      make_frame states transitions d t = FrameOut.pure (get_state_at states t)) := by
  refine ⟨?_, ?_, ?_, ?_, ?_, ?_⟩
  · intro t T hfind
    rw [make_frame, hfind]
  · intro T
    rw [blend_factor]
    simp
  · intro T
    rw [blend_factor]
    have h : T + d / 2 - (T - d / 2) = d := by ring
    rw [h, div_self (ne_of_gt hd)]
    simp
  · intro T t1 t2 h1 h12 h2
    have hx1 : (0 : ℚ) ≤ (t1 - (T - d / 2)) / d :=
      div_nonneg (by linarith) (le_of_lt hd)
    have hx2 : (t2 - (T - d / 2)) / d ≤ 1 :=
      (div_le_one hd).mpr (by linarith)
    have hlt : (t1 - (T - d / 2)) / d < (t2 - (T - d / 2)) / d := by
      gcongr
    rw [blend_factor, blend_factor]
    rw [min_eq_right (le_trans (le_of_lt hlt) hx2),
      min_eq_right hx2,
      max_eq_right hx1,
      max_eq_right (le_trans hx1 (le_of_lt hlt))]
    exact hlt
  · intro o i
    constructor
    · rw [alphaBlend]; ring
    · rw [alphaBlend]; ring
  · intro t hfind
    rw [make_frame, hfind]

theorem crossfade_blend_spec_witness :
    ((0 : ℚ) < 2 ∧ ([(3 : ℚ)]).find? (in_window 2 2) = some 3) ∧
    make_frame [] [(3 : ℚ)] 2 2 =
      FrameOut.blend (stateFrameLast [] (3 - 1/100)) (stateFrameLast [] (3 + 1/100))
        (blend_factor 3 2 2) := by
  have hd : (0 : ℚ) < 2 := by decide
  have hw : in_window 2 2 3 = true := by
    rw [in_window, decide_eq_true_eq]
    norm_num
  have hfind : ([(3 : ℚ)]).find? (in_window 2 2) = some 3 :=
    List.find?_cons_of_pos _ hw
  exact ⟨⟨hd, hfind⟩, (crossfade_blend_spec [] [(3 : ℚ)] 2 hd).1 2 3 hfind⟩

/-! ## C9: audio duration probes never propagate failure -/

/-- C9: both audio-duration probes are total, rational-valued functions of the
probe outcome: any failure to open/read yields the fallback constant `5.0`
instead of an error, and success yields the measured duration (pydub's in
milliseconds divided by 1000), so the sequencer never receives a failure from
these calls. -/
theorem audio_duration_probe_total :
    (∀ e, get_audio_duration_moviepy (.error e) = 5) ∧
    (∀ d, get_audio_duration_moviepy (.ok d) = d) ∧
    (∀ e, get_audio_duration (.error e) = 5) ∧
    (∀ ms, get_audio_duration (.ok ms) = (ms : ℚ) / 1000) :=
  ⟨fun _ => rfl, fun _ => rfl, fun _ => rfl, fun _ => rfl⟩

/-! ## C2: duration bounds of the reel sequencer -/

/-- C2: the finalized total duration handed to the compositor never exceeds
`max_content_duration`; a fetched unit whose `segment_end + 0.5` trailing
buffer projection exceeds the maximum is not appended when at least one unit
is already present (in both the accumulation and the extension loop); and the
safety-net cap forces a still-exceeding total down to exactly the maximum
without removing already-appended units. -/
theorem generate_reel_duration_bounds (reqDurs extDurs : List ℚ)
    (padding minC maxC : ℚ) :
    (generate_reel_model reqDurs extDurs padding minC maxC).2 ≤ maxC ∧
    (generate_reel_model reqDurs extDurs padding minC maxC).1 =
      (assemble_reel reqDurs extDurs padding minC maxC).1 ∧
    ((assemble_reel reqDurs extDurs padding minC maxC).2 > maxC →
      (generate_reel_model reqDurs extDurs padding minC maxC).2 = maxC) ∧
    (∀ d rest t acc, acc ≠ [] → fetch_segment_end t d padding + 1/2 > maxC →
      accumulateLoop padding maxC (d :: rest) t acc = (acc, t)) ∧
    (∀ d rest t total acc, total < minC → total < maxC →
      fetch_segment_end t d padding + 1/2 > maxC →
      extendLoop padding minC maxC (d :: rest) t total acc = (acc, total)) := by
  refine ⟨?_, rfl, ?_, ?_, ?_⟩
  · show (if (assemble_reel reqDurs extDurs padding minC maxC).2 > maxC
        then maxC else (assemble_reel reqDurs extDurs padding minC maxC).2) ≤ maxC
    split
    · exact le_refl _
    · next h => exact le_of_not_lt h
  · intro h
    show (if (assemble_reel reqDurs extDurs padding minC maxC).2 > maxC
        then maxC else (assemble_reel reqDurs extDurs padding minC maxC).2) = maxC
    exact if_pos h
  · intro d rest t acc h1 h2
    simp only [accumulateLoop]
    rw [if_pos ⟨h1, h2⟩]
  · intro d rest t total acc h1 h2 h3
    simp only [extendLoop]
    rw [if_pos ⟨h1, h2⟩, if_pos h3]

theorem generate_reel_duration_bounds_witness :
    (([⟨0, 20⟩] : List AyahRec) ≠ [] ∧ fetch_segment_end (0 : ℚ) 20 0 + 1/2 > 10) ∧
    accumulateLoop 0 10 [20] 0 [⟨0, 20⟩] = ([⟨0, 20⟩], 0) := by
  have h1 : ([⟨0, 20⟩] : List AyahRec) ≠ [] := by decide
  have h2 : fetch_segment_end (0 : ℚ) 20 0 + 1/2 > 10 := by
    norm_num [fetch_segment_end]
  exact ⟨⟨h1, h2⟩,
    (generate_reel_duration_bounds [] [] 0 0 10).2.2.2.1 20 [] 0 [⟨0, 20⟩] h1 h2⟩

/-! ## C8: length contract of split_translation_by_pages -/

/-- C8 (amended): the returned list's length is `max 1 (number of pages)` —
equal to the number of pages whenever the page list is non-empty, but `1`
(not `0`) when the page list is empty; degenerate inputs (empty translation
or empty page list) return the translation repeated `max(1, len(pages))`
times, and a one-page list returns `[translation]` unchanged. -/
theorem split_translation_length_spec (translation : String)
    (page_boundaries : List Page) (total_word_count : ℤ) :
    (split_translation_by_pages translation page_boundaries total_word_count).length
      = max 1 page_boundaries.length ∧
    ((translation = "" ∨ page_boundaries = []) →
      split_translation_by_pages translation page_boundaries total_word_count
        = List.replicate (max 1 page_boundaries.length) translation) ∧
    (page_boundaries.length = 1 →
      split_translation_by_pages translation page_boundaries total_word_count
        = [translation]) := by
  refine ⟨?_, ?_, ?_⟩
  · by_cases hdeg : translation = "" ∨ page_boundaries = []
    · rw [split_translation_by_pages, if_pos hdeg, List.length_replicate]
    · rw [split_translation_by_pages, if_neg hdeg]
      push_neg at hdeg
      have hne : page_boundaries.length ≠ 0 := by
        simpa [List.length_eq_zero] using hdeg.2
      by_cases h1 : page_boundaries.length ≤ 1
      · rw [if_pos h1]
        simp only [List.length_singleton]
        omega
      · rw [if_neg h1]
        simp only [List.length_append, List.length_map, List.length_replicate,
          segLists_length]
        omega
  · intro hdeg
    rw [split_translation_by_pages, if_pos hdeg]
  · intro hlen
    by_cases hdeg : translation = "" ∨ page_boundaries = []
    · rw [split_translation_by_pages, if_pos hdeg, hlen]
      rcases hdeg with h | h
      · simp [h]
      · rw [h] at hlen; simp at hlen
    · rw [split_translation_by_pages, if_neg hdeg, if_pos (le_of_eq hlen)]

theorem split_translation_length_counterexample :
    split_translation_by_pages "hello" [] 5 = ["hello"] ∧
    (split_translation_by_pages "hello" [] 5).length ≠ ([] : List Page).length := by
  have h : split_translation_by_pages "hello" [] 5 = ["hello"] := by
    rw [split_translation_by_pages, if_pos (Or.inr rfl)]
    rfl
  exact ⟨h, by rw [h]; decide⟩

theorem split_translation_length_spec_witness :
    (([⟨0, 0, 1, 0, 4⟩] : List Page).length = 1) ∧
    split_translation_by_pages "a b" [⟨0, 0, 1, 0, 4⟩] 5 = ["a b"] :=
  ⟨by decide,
    (split_translation_length_spec "a b" [⟨0, 0, 1, 0, 4⟩] 5).2.2 (by decide)⟩

end QuranReels
